import Mathlib

/-!
# Verification of `grammarlib/core.py`

A shallow embedding of the grammar algebra, the reachability traversal and
the FIRST/FOLLOW fixpoint solvers of `src/grammarlib/core.py`.

Modelling conventions:
* `Terminal` values are identified by their text (`String`), matching the
  frozen dataclass's value equality.
* `NonTerminal` objects are mutable nodes compared by identity in Python;
  we embed them as indices (`Nat`) into an arena `List NonTerminalNode`,
  so identity comparison becomes index equality.
* Python `set` iteration order is unspecified; the solvers take the list of
  discovered non-terminals explicitly as the iteration order.
* Python's unbounded `while changed:` loops and the recursive traversal are
  embedded with explicit fuel; lemmas below show the chosen fuel suffices.
* Python dicts are embedded as association lists (`List (Nat × Finset Tok)`)
  with first-occurrence lookup and in-place replacement, so statements about
  the key sets of the returned mappings are faithful.
-/

namespace Grammarlib

/-- A grammar symbol: either a `Terminal` (value-identified by its text) or a
`NonTerminal` (identified by its arena index). Embeds the Python classes
`Terminal` and `NonTerminal` as used inside expansions. -/
inductive Symbol where
  | terminal (text : String)
  | nonTerminal (id : Nat)
deriving DecidableEq, Repr

/-- `Expansion = Tuple["Symbol", ...]`: one ordered right-hand side. -/
abbrev Expansion := List Symbol

/-- `ExpansionAlternatives`: the (ordered, duplicate-permitting) collection of
alternative right-hand sides, embedding the Python frozen dataclass whose
`expansions` field is a sequence of tuples. -/
structure ExpansionAlternatives where
  expansions : List Expansion
deriving DecidableEq, Repr

/-- `Symbol.__mul__` when `other` is a `Symbol`:
`ExpansionAlternatives([(self, other)])`. -/
def Symbol.mulSym (s other : Symbol) : ExpansionAlternatives :=
  ⟨[[s, other]]⟩

/-- `Symbol.__mul__` when `other` is an `ExpansionAlternatives`:
`ExpansionAlternatives([(self, *expansion) for expansion in other.expansions])`. -/
def Symbol.mulAlts (s : Symbol) (other : ExpansionAlternatives) : ExpansionAlternatives :=
  ⟨other.expansions.map (fun e => s :: e)⟩

/-- `Symbol.__or__` when `other` is a `Symbol`:
`ExpansionAlternatives([(self,), (other,)])`. -/
def Symbol.orSym (s other : Symbol) : ExpansionAlternatives :=
  ⟨[[s], [other]]⟩

/-- `Symbol.__or__` when `other` is an `ExpansionAlternatives`:
`ExpansionAlternatives([(self,), *other.expansions])`. -/
def Symbol.orAlts (s : Symbol) (other : ExpansionAlternatives) : ExpansionAlternatives :=
  ⟨[s] :: other.expansions⟩

/-- `ExpansionAlternatives.__mul__` when `other` is a `Symbol`:
`ExpansionAlternatives([(*se, other) for se in self.expansions])`. -/
def ExpansionAlternatives.mulSym (a : ExpansionAlternatives) (other : Symbol) :
    ExpansionAlternatives :=
  ⟨a.expansions.map (fun e => e ++ [other])⟩

/-- `ExpansionAlternatives.__mul__` when `other` is an `ExpansionAlternatives`:
`ExpansionAlternatives([(*se, *oe) for se in self.expansions for oe in other.expansions])`. -/
def ExpansionAlternatives.mulAlts (a other : ExpansionAlternatives) :
    ExpansionAlternatives :=
  ⟨(a.expansions.map (fun se => other.expansions.map (fun oe => se ++ oe))).flatten⟩

/-- `ExpansionAlternatives.__or__` when `other` is a `Symbol`:
`ExpansionAlternatives([*self.expansions, (other,)])`. -/
def ExpansionAlternatives.orSym (a : ExpansionAlternatives) (other : Symbol) :
    ExpansionAlternatives :=
  ⟨a.expansions ++ [[other]]⟩

/-- `ExpansionAlternatives.__or__` when `other` is an `ExpansionAlternatives`:
`ExpansionAlternatives([*self.expansions, *other.expansions])`. -/
def ExpansionAlternatives.orAlts (a other : ExpansionAlternatives) :
    ExpansionAlternatives :=
  ⟨a.expansions ++ other.expansions⟩

/-- `never()`: the alternatives set with zero expansions. -/
def never : ExpansionAlternatives := ⟨[]⟩

/-- `epsilon()`: the alternatives set containing exactly the empty expansion. -/
def epsilon : ExpansionAlternatives := ⟨[[]]⟩

/-- An operand of the overloaded operators: a bare `Symbol` or an
`ExpansionAlternatives` value, matching the
`Union["Symbol", "ExpansionAlternatives"]` annotations. -/
inductive Operand where
  | sym (s : Symbol)
  | alts (a : ExpansionAlternatives)

/-- The `*` operator with Python's `isinstance` dispatch over both operands. -/
def Operand.mul : Operand → Operand → ExpansionAlternatives
  | .sym s, .sym t => s.mulSym t
  | .sym s, .alts b => s.mulAlts b
  | .alts a, .sym t => a.mulSym t
  | .alts a, .alts b => a.mulAlts b

/-- The `|` operator with Python's `isinstance` dispatch over both operands. -/
def Operand.or : Operand → Operand → ExpansionAlternatives
  | .sym s, .sym t => s.orSym t
  | .sym s, .alts b => s.orAlts b
  | .alts a, .sym t => a.orSym t
  | .alts a, .alts b => a.orAlts b

/-- A bare symbol denotes the singleton alternatives set of one one-term
expansion (the treatment every overload gives a `Symbol` operand). -/
def Operand.toAlts : Operand → ExpansionAlternatives
  | .sym s => ⟨[[s]]⟩
  | .alts a => a

/-- The multiset of term-sequences of an alternatives value (insertion order
irrelevant, duplicates kept). -/
def ExpansionAlternatives.multiset (a : ExpansionAlternatives) : Multiset Expansion :=
  ↑a.expansions

/-- The data carried by a `NonTerminal` object: its optional `label` and its
`alternatives`. Object identity is the index of the node in the arena. -/
structure NonTerminalNode where
  label : Option String
  alternatives : ExpansionAlternatives
deriving DecidableEq, Repr

/-- The non-terminal ids occurring in one expansion, in order (the terms the
traversal recurses into: `if isinstance(symbol, NonTerminal)`). -/
def ntIdsOfExpansion (e : Expansion) : List Nat :=
  e.filterMap (fun s => match s with | .nonTerminal i => some i | .terminal _ => none)

/-- The expansions of the node with arena index `i` (empty when the index is
not allocated — unreachable in Python, where every referenced object exists). -/
def alternativesOf (ns : List NonTerminalNode) (i : Nat) : List Expansion :=
  match ns[i]? with
  | some nd => nd.alternatives.expansions
  | none => []

/-- The non-terminal ids referenced from node `i`'s alternatives, in traversal
order. -/
def childIds (ns : List NonTerminalNode) (i : Nat) : List Nat :=
  (alternativesOf ns i).flatMap ntIdsOfExpansion

/-- `Grammar._add_non_terminal`, with the visited set (`self.non_terminals`)
threaded explicitly and recursion bounded by fuel. `addNonTerminal ns fuel
visited i` returns the visited set after the call on node `i`. The lemmas
below show the fuel chosen in `nonTerminals` suffices. -/
def addNonTerminal (ns : List NonTerminalNode) : Nat → List Nat → Nat → List Nat
  | 0, visited, _ => visited
  | fuel + 1, visited, i =>
    if i ∈ visited then visited
    else (childIds ns i).foldl (fun v j => addNonTerminal ns fuel v j) (i :: visited)

/-- Every id the traversal can ever encounter: the start, every allocated
index, and every id referenced from any node. -/
def idUniverse (ns : List NonTerminalNode) (start : Nat) : Finset Nat :=
  insert start
    ((List.range ns.length).toFinset ∪
      (ns.flatMap (fun nd => nd.alternatives.expansions.flatMap ntIdsOfExpansion)).toFinset)

/-- Fuel that provably suffices for the traversal. -/
def dfsFuel (ns : List NonTerminalNode) (start : Nat) : Nat :=
  (idUniverse ns start).card + 1

/-- The discovered set `self.non_terminals` built by `Grammar.__init__` via
`_add_non_terminal(starting_non_terminal)` (as a duplicate-free list). -/
def nonTerminals (ns : List NonTerminalNode) (start : Nat) : List Nat :=
  addNonTerminal ns (dfsFuel ns start) [] start

/-- Reachability from the start by transitively following the non-terminal
terms of alternatives. -/
inductive Reach (ns : List NonTerminalNode) (start : Nat) : Nat → Prop where
  | refl : Reach ns start start
  | step {i j : Nat} : Reach ns start i → j ∈ childIds ns i → Reach ns start j

/-- The `Grammar` object: start node, arena, and the discovered set. -/
structure Grammar where
  nodes : List NonTerminalNode
  starting_non_terminal : Nat
  non_terminals : List Nat
deriving DecidableEq, Repr

/-- `Grammar.__init__`: stores the start symbol and computes the discovered
set. -/
def Grammar.make (ns : List NonTerminalNode) (start : Nat) : Grammar :=
  ⟨ns, start, nonTerminals ns start⟩

/-- An element of a FIRST/FOLLOW result set: `none` is the nullable / end
marker (Python `None`), `some t` a terminal with text `t`. -/
abbrev Tok := Option String

/-- A result mapping, embedded as an association list with first-occurrence
lookup, mirroring a Python `dict` keyed by node identity. -/
abbrev TokenDict := List (Nat × Finset Tok)

/-- `d[k]` (defaulting to `∅` on a missing key, which never occurs in the
solvers' uses). -/
def dictGet (d : TokenDict) (k : Nat) : Finset Tok :=
  match d with
  | [] => ∅
  | (k', v) :: rest => if k' = k then v else dictGet rest k

/-- `d[k] = v`: replace the value at the first occurrence of `k`, appending a
new entry when `k` is absent (Python dict assignment). -/
def dictSet (d : TokenDict) (k : Nat) (v : Finset Tok) : TokenDict :=
  match d with
  | [] => [(k, v)]
  | (k', v') :: rest => if k' = k then (k, v) :: rest else (k', v') :: dictSet rest k v

/-- The keys of the mapping, in order. -/
def dictKeys (d : TokenDict) : List Nat := d.map Prod.fst

/-- The initialization loop `for non_terminal in self.non_terminals:
result[non_terminal] = set()`. -/
def initDict (order : List Nat) : TokenDict := order.map (fun i => (i, (∅ : Finset Tok)))

/-- `first_set_of_symbol`: `result[symbol]` for a non-terminal, `{symbol}` for
a terminal. -/
def firstSymbolSet (res : TokenDict) : Symbol → Finset Tok
  | .terminal t => {some t}
  | .nonTerminal i => dictGet res i

/-- The inner scan of one expansion of non-terminal `i` in `first_sets`
(left to right, with the union-if-not-subset update, the `break` when the
scanned symbol's first set lacks `None`, and the trailing
`if can_be_empty and not (None in result[non_terminal])` insertion).
Returns the updated mapping and `changed` flag. -/
def firstScanExpansion (i : Nat) : Expansion → TokenDict → Bool → TokenDict × Bool
  | [], res, ch =>
    if none ∈ dictGet res i then (res, ch)
    else (dictSet res i (insert none (dictGet res i)), true)
  | s :: rest, res, ch =>
    let f := firstSymbolSet res s
    let acc :=
      if f ⊆ dictGet res i then (res, ch)
      else (dictSet res i (dictGet res i ∪ f), true)
    if none ∈ f then firstScanExpansion i rest acc.1 acc.2
    else acc

/-- The `for expansion in non_terminal.alternatives.expansions` loop of
`first_sets` for one non-terminal. -/
def firstScanNonTerminal (ns : List NonTerminalNode) (i : Nat) (acc : TokenDict × Bool) :
    TokenDict × Bool :=
  (alternativesOf ns i).foldl (fun a e => firstScanExpansion i e a.1 a.2) acc

/-- One full pass of `first_sets`' `while changed:` loop body: `changed` reset
to `False`, then every non-terminal scanned in the given iteration order. -/
def firstPass (ns : List NonTerminalNode) (order : List Nat) (res : TokenDict) :
    TokenDict × Bool :=
  order.foldl (fun a i => firstScanNonTerminal ns i a) (res, false)

/-- The `while changed:` loop of `first_sets`, bounded by fuel. -/
def firstIterate (ns : List NonTerminalNode) (order : List Nat) :
    Nat → TokenDict → TokenDict
  | 0, res => res
  | fuel + 1, res =>
    let a := firstPass ns order res
    if a.2 then firstIterate ns order fuel a.1 else a.1

/-- Every set element the FIRST solver can ever add: `None` and the terminals
occurring in the arena's expansions. -/
def tokUniverse (ns : List NonTerminalNode) : Finset Tok :=
  insert none
    (((ns.flatMap (fun nd => nd.alternatives.expansions.flatten)).filterMap
      (fun s => match s with | .terminal t => some t | .nonTerminal _ => none)).toFinset.image some)

/-- Fuel that provably suffices for the solver loops: the total size of all
result sets grows by at least one on every changed pass and is bounded by
`|tokUniverse| * |order|`. -/
def solveFuel (ns : List NonTerminalNode) (order : List Nat) : Nat :=
  (tokUniverse ns).card * order.length + 1

/-- `Grammar.first_sets` with the iteration order over `self.non_terminals`
made explicit. -/
def firstSetsFrom (ns : List NonTerminalNode) (order : List Nat) : TokenDict :=
  firstIterate ns order (solveFuel ns order) (initDict order)

/-- `Grammar.first_sets()`. -/
def Grammar.first_sets (g : Grammar) : TokenDict :=
  firstSetsFrom g.nodes g.non_terminals

/-- The `for symbol in reversed(expansion)` scan of one expansion of
non-terminal `i` in `follow_sets`: the running state is
(result, changed, current_follow_set), with `current_follow_set` initialized
to `result[non_terminal]`. -/
def followStep (fs : TokenDict) (acc : TokenDict × Bool × Finset Tok) (s : Symbol) :
    TokenDict × Bool × Finset Tok :=
  match s with
  | .terminal t => (acc.1, acc.2.1, ({some t} : Finset Tok))
  | .nonTerminal j =>
    let res := acc.1
    let current := acc.2.2
    let upd :=
      if current ⊆ dictGet res j then (res, acc.2.1)
      else (dictSet res j (dictGet res j ∪ current), true)
    let current' :=
      if none ∈ dictGet fs j then current ∪ (dictGet fs j).erase none
      else dictGet fs j
    (upd.1, upd.2, current')

def followScanExpansion (fs : TokenDict) (i : Nat) (e : Expansion)
    (res : TokenDict) (ch : Bool) : TokenDict × Bool :=
  let out := e.reverse.foldl (followStep fs) (res, ch, dictGet res i)
  (out.1, out.2.1)

/-- The per-non-terminal loop of `follow_sets`. -/
def followScanNonTerminal (ns : List NonTerminalNode) (fs : TokenDict) (i : Nat)
    (acc : TokenDict × Bool) : TokenDict × Bool :=
  (alternativesOf ns i).foldl (fun a e => followScanExpansion fs i e a.1 a.2) acc

/-- One full pass of `follow_sets`' `while changed:` loop body. -/
def followPass (ns : List NonTerminalNode) (fs : TokenDict) (order : List Nat)
    (res : TokenDict) : TokenDict × Bool :=
  order.foldl (fun a i => followScanNonTerminal ns fs i a) (res, false)

/-- The `while changed:` loop of `follow_sets`, bounded by fuel. -/
def followIterate (ns : List NonTerminalNode) (fs : TokenDict) (order : List Nat) :
    Nat → TokenDict → TokenDict
  | 0, res => res
  | fuel + 1, res =>
    let a := followPass ns fs order res
    if a.2 then followIterate ns fs order fuel a.1 else a.1

/-- `Grammar.follow_sets` with the iteration order made explicit: initialize
every discovered non-terminal to `∅`, add `None` to the start symbol's set,
compute the FIRST sets, then iterate to the fixpoint. -/
def followSetsFrom (ns : List NonTerminalNode) (start : Nat) (order : List Nat) :
    TokenDict :=
  let res0 := dictSet (initDict order) start (insert none (dictGet (initDict order) start))
  let fs := firstSetsFrom ns order
  followIterate ns fs order (solveFuel ns order) res0

/-- `Grammar.follow_sets()`. -/
def Grammar.follow_sets (g : Grammar) : TokenDict :=
  followSetsFrom g.nodes g.starting_non_terminal g.non_terminals

/-- The method call `g.first_sets()` as a state transformer: the pair of the
object state after the call and the returned mapping. The method body reads
`self.non_terminals` and the nodes' `alternatives` and writes only its local
`result`, so the post-state is the receiver unchanged. -/
def Grammar.first_sets_call (g : Grammar) : Grammar × TokenDict :=
  (g, g.first_sets)

/-- The method call `g.follow_sets()` as a state transformer (see
`Grammar.first_sets_call`). -/
def Grammar.follow_sets_call (g : Grammar) : Grammar × TokenDict :=
  (g, g.follow_sets)

/-! ## Concrete grammars from the specification's scenarios -/

/-- Node `A -> "a"`, built as `nt(t("a"))` (arena index 0 below). -/
def nodeA : NonTerminalNode := ⟨some "A", epsilon.mulSym (.terminal "a")⟩

/-- Node `B -> "b"`, built as `nt("B", t("b"))` (arena index 1 below). -/
def nodeB : NonTerminalNode := ⟨some "B", epsilon.mulSym (.terminal "b")⟩

/-- Node `D -> (A|B)(A|B)` (arena index 2 below). -/
def nodeD : NonTerminalNode :=
  ⟨some "D",
    epsilon.mulAlts
      (((Symbol.nonTerminal 0).orSym (.nonTerminal 1)).mulAlts
        ((Symbol.nonTerminal 0).orSym (.nonTerminal 1)))⟩

/-- Node `C -> A | A B | D "b"` (arena index 3 below). -/
def nodeC : NonTerminalNode :=
  ⟨some "C",
    epsilon.mulAlts
      (((Symbol.nonTerminal 0).orAlts ((Symbol.nonTerminal 0).mulSym (.nonTerminal 1))).orAlts
        ((Symbol.nonTerminal 2).mulSym (.terminal "b")))⟩

/-- The §8 concrete-scenario grammar, start = `C`. -/
def scenarioGrammar : Grammar := Grammar.make [nodeA, nodeB, nodeD, nodeC] 3

/-- Node `E -> epsilon | "x"` (arena index 0 below). -/
def nodeE : NonTerminalNode := ⟨some "E", epsilon.orAlts (epsilon.mulSym (.terminal "x"))⟩

/-- Node `F -> E "y"` (arena index 1 below). -/
def nodeF : NonTerminalNode :=
  ⟨some "F", epsilon.mulAlts ((Symbol.nonTerminal 0).mulSym (.terminal "y"))⟩

/-- The nullable-propagation grammar `E -> epsilon | "x"`, `F -> E "y"`,
start = `F`. -/
def nullableGrammar : Grammar := Grammar.make [nodeE, nodeF] 1

/-! ## The operator overloads factor through `Operand.toAlts` -/

/-- Flattening a list of singleton lists is mapping. -/
theorem flatten_map_singleton {α β : Type} (l : List α) (f : α → List β) :
    (l.map (fun x => [f x])).flatten = l.map f := by
  induction l with
  | nil => rfl
  | cons a t ih => simp [List.flatten, ih]

/-- All four `*` overloads agree with converting each operand to its
alternatives set first. -/
theorem Operand.mul_eq_toAlts (X Y : Operand) :
    X.mul Y = X.toAlts.mulAlts Y.toAlts := by
  cases X with
  | sym s =>
    cases Y with
    | sym t =>
      simp [Operand.mul, Operand.toAlts, Symbol.mulSym, ExpansionAlternatives.mulAlts]
    | alts b =>
      simp [Operand.mul, Operand.toAlts, Symbol.mulAlts, ExpansionAlternatives.mulAlts]
  | alts a =>
    cases Y with
    | sym t =>
      simp [Operand.mul, Operand.toAlts, ExpansionAlternatives.mulSym,
        ExpansionAlternatives.mulAlts, flatten_map_singleton]
    | alts b => rfl

/-- All four `|` overloads agree with converting each operand to its
alternatives set first. -/
theorem Operand.or_eq_toAlts (X Y : Operand) :
    X.or Y = X.toAlts.orAlts Y.toAlts := by
  cases X <;> cases Y <;> rfl

/-- `Operand.toAlts` is the identity on alternatives operands. -/
@[simp] theorem Operand.toAlts_alts (a : ExpansionAlternatives) :
    (Operand.alts a).toAlts = a := rfl

/-- Flattening distributes over pointwise-appended mapped lists, up to
permutation. -/
theorem flatten_map_append_perm {α β : Type} (l : List α) (f g : α → List β) :
    ((l.map (fun x => f x ++ g x)).flatten).Perm
      ((l.map f).flatten ++ (l.map g).flatten) := by
  induction l with
  | nil => simp
  | cons a t ih =>
    simp only [List.map_cons, List.flatten_cons]
    have h1 : (g a ++ ((t.map f).flatten ++ (t.map g).flatten)).Perm
        ((t.map f).flatten ++ (g a ++ (t.map g).flatten)) := by
      rw [← List.append_assoc, ← List.append_assoc]
      exact List.perm_append_comm.append_right _
    rw [List.append_assoc, List.append_assoc]
    exact List.Perm.append_left (f a) ((ih.append_left (g a)).trans h1)

/-- C4: `never() | X` yields exactly `X`'s expansions (as a multiset of
term-sequences), `never() * X` yields zero expansions, and `epsilon() * X`
yields exactly `X`'s expansions, for `X` a bare symbol or an alternatives
value. -/
theorem never_epsilon_identity_absorption (X : Operand) :
    ((Operand.alts never).or X).multiset = X.toAlts.multiset ∧
      ((Operand.alts never).mul X).expansions = [] ∧
      ((Operand.alts epsilon).mul X).multiset = X.toAlts.multiset := by
  refine ⟨?_, ?_, ?_⟩
  · rw [Operand.or_eq_toAlts]
    simp [Operand.toAlts, never, ExpansionAlternatives.orAlts, ExpansionAlternatives.multiset]
  · rw [Operand.mul_eq_toAlts]
    simp [Operand.toAlts, never, ExpansionAlternatives.mulAlts]
  · rw [Operand.mul_eq_toAlts]
    simp [Operand.toAlts, epsilon, ExpansionAlternatives.mulAlts,
      ExpansionAlternatives.multiset, List.flatten]

/-- C5: concatenation distributes over union on both sides, comparing
multisets of term-sequences, for `X`, `Y`, `Z` bare symbols or alternatives
values. -/
theorem mul_or_distrib (X Y Z : Operand) :
    ((Operand.alts (X.or Y)).mul Z).multiset
        = ((Operand.alts (X.mul Z)).or (Operand.alts (Y.mul Z))).multiset ∧
      (Z.mul (Operand.alts (X.or Y))).multiset
        = ((Operand.alts (Z.mul X)).or (Operand.alts (Z.mul Y))).multiset := by
  constructor
  · simp only [Operand.mul_eq_toAlts, Operand.or_eq_toAlts, Operand.toAlts_alts]
    simp [ExpansionAlternatives.mulAlts, ExpansionAlternatives.orAlts,
      ExpansionAlternatives.multiset, List.map_append, List.flatten_append]
  · simp only [Operand.mul_eq_toAlts, Operand.or_eq_toAlts, Operand.toAlts_alts]
    simp only [ExpansionAlternatives.mulAlts, ExpansionAlternatives.orAlts,
      ExpansionAlternatives.multiset]
    apply Multiset.coe_eq_coe.mpr
    simp only [List.map_append]
    exact flatten_map_append_perm Z.toAlts.expansions
      (fun se => X.toAlts.expansions.map (fun oe => se ++ oe))
      (fun se => Y.toAlts.expansions.map (fun oe => se ++ oe))

/-! ## Claim theorems: concrete scenarios and the frame property -/

/-- C1 (divergence witness): on the grammar `E -> epsilon | "x"`, `F -> E "y"`
(arena indices `E = 0`, `F = 1`, start `F`), the code computes
`FIRST(E) = {nullable, "x"}` as the claim states, and `FIRST(F)` does contain
`"y"` — but `first_sets` unions the whole of `FIRST(E)` (nullable marker
included) into `FIRST(F)`, so the nullable marker IS in `FIRST(F)`, although
`F` cannot derive the empty word. This evaluates the code at the claim's
failing input. -/
theorem first_sets_propagates_nullable_marker_into_F :
    dictGet nullableGrammar.first_sets 0 = {none, some "x"} ∧
      some "y" ∈ dictGet nullableGrammar.first_sets 1 ∧
      none ∈ dictGet nullableGrammar.first_sets 1 := by
  decide

/-- C2: on the §8 scenario grammar (`A = 0`, `B = 1`, `D = 2`, `C = 3`,
start `C`), `first_sets` returns `FIRST(A) = {"a"}`, `FIRST(B) = {"b"}`,
`FIRST(D) = {"a","b"}`, `FIRST(C) = {"a","b"}`, and `follow_sets` returns a
`FOLLOW(A)` containing the end marker, `"b"` and `"a"`, and
`FOLLOW(D) = {"b"}` exactly. -/
theorem scenario_first_follow_sets :
    dictGet scenarioGrammar.first_sets 0 = {some "a"} ∧
      dictGet scenarioGrammar.first_sets 1 = {some "b"} ∧
      dictGet scenarioGrammar.first_sets 2 = {some "a", some "b"} ∧
      dictGet scenarioGrammar.first_sets 3 = {some "a", some "b"} ∧
      none ∈ dictGet scenarioGrammar.follow_sets 0 ∧
      some "b" ∈ dictGet scenarioGrammar.follow_sets 0 ∧
      some "a" ∈ dictGet scenarioGrammar.follow_sets 0 ∧
      dictGet scenarioGrammar.follow_sets 2 = {some "b"} := by
  decide

/-- C7: the solver calls leave the grammar unchanged — the post-state's
start symbol, discovered set and node arena (every label and every
alternatives value) equal their values before the call; the returned mapping
is the solvers' own fresh result. -/
theorem solvers_leave_grammar_unchanged (g : Grammar) :
    (g.first_sets_call).1.starting_non_terminal = g.starting_non_terminal ∧
      (g.first_sets_call).1.non_terminals = g.non_terminals ∧
      (g.first_sets_call).1.nodes = g.nodes ∧
      (g.follow_sets_call).1.starting_non_terminal = g.starting_non_terminal ∧
      (g.follow_sets_call).1.non_terminals = g.non_terminals ∧
      (g.follow_sets_call).1.nodes = g.nodes ∧
      (g.first_sets_call).2 = g.first_sets ∧
      (g.follow_sets_call).2 = g.follow_sets :=
  ⟨rfl, rfl, rfl, rfl, rfl, rfl, rfl, rfl⟩

/-! ## The memoized parametric family `P(0) -> "a"`, `P(n) -> P(n-1) "x"`

`parametric_nt` wraps a builder in `functools.cache`: one call per distinct
argument tuple, with the cached `NonTerminal` object returned on repeats.
Object creation is embedded as arena allocation, and the cache as an explicit
association list from argument to arena index, following the construction of
`pnt` in `_main`. -/

/-- The construction state: the arena of allocated `NonTerminal` objects and
`functools.cache`'s memo table (argument → arena index of the result). -/
structure BuildState where
  arena : List NonTerminalNode
  cache : List (Nat × Nat)
deriving DecidableEq, Repr

/-- Allocate a fresh `NonTerminal` object and record it in the memo table for
argument `arg`. The returned index is the new object's identity. -/
def allocNode (s : BuildState) (arg : Nat) (nd : NonTerminalNode) : BuildState × Nat :=
  (⟨s.arena ++ [nd], (arg, s.arena.length) :: s.cache⟩, s.arena.length)

/-- The memoized family `pnt`: on a cache hit return the cached object; on a
miss run the builder (`nt(t("a"))` for `x <= 0`, `nt(pnt(x - 1) * t("x"))`
otherwise, labelled `pnt(x)` by `parametric_nt`) and cache the result. -/
def pnt : Nat → BuildState → BuildState × Nat
  | 0, s =>
    match s.cache.lookup 0 with
    | some i => (s, i)
    | none => allocNode s 0 ⟨some "pnt(0)", epsilon.mulSym (.terminal "a")⟩
  | x + 1, s =>
    match s.cache.lookup (x + 1) with
    | some i => (s, i)
    | none =>
      let a := pnt x s
      allocNode a.1 (x + 1)
        ⟨some ("pnt(" ++ toString (x + 1) ++ ")"),
          epsilon.mulAlts ((Symbol.nonTerminal a.2).mulSym (.terminal "x"))⟩

/-- After a call, the memo table maps the argument to the returned object. -/
theorem pnt_cache_after (x : Nat) (s : BuildState) :
    ((pnt x s).1).cache.lookup x = some (pnt x s).2 := by
  cases x with
  | zero =>
    unfold pnt
    cases h : s.cache.lookup 0 with
    | some i => simp [h]
    | none => simp [h, allocNode, List.lookup]
  | succ n =>
    unfold pnt
    cases h : s.cache.lookup (n + 1) with
    | some i => simp [h]
    | none => simp [h, allocNode, List.lookup]

/-- A call whose argument is in the memo table returns the cached object and
leaves the state unchanged (the underlying builder does not run). -/
theorem pnt_cache_hit (x : Nat) (s : BuildState) (i : Nat)
    (h : s.cache.lookup x = some i) : pnt x s = (s, i) := by
  cases x with
  | zero => unfold pnt; simp [h]
  | succ n => unfold pnt; simp [h]

/-- C9: repeated calls of the memoized family with an equal argument return
the same object identity and do not rerun the builder (the state is
unchanged); and building `P(3)` from an empty state allocates exactly the
four objects `P(0)`, `P(1)`, `P(2)`, `P(3)` (arena indices 0, 1, 2, 3, start
index 3), with `Grammar` discovery from `P(3)` terminating on exactly that
set of four nodes. -/
theorem parametric_nt_memoized_and_discovered :
    (∀ (x : Nat) (s : BuildState), pnt x (pnt x s).1 = pnt x s) ∧
      (pnt 3 ⟨[], []⟩).1.arena.length = 4 ∧
      (pnt 3 ⟨[], []⟩).2 = 3 ∧
      (nonTerminals (pnt 3 ⟨[], []⟩).1.arena (pnt 3 ⟨[], []⟩).2).toFinset
        = ({0, 1, 2, 3} : Finset Nat) := by
  refine ⟨?_, by decide, by decide, by decide⟩
  intro x s
  exact pnt_cache_hit x (pnt x s).1 (pnt x s).2 (pnt_cache_after x s)

/-! ## Correctness of the reachability traversal -/

/-- Reachability is transitive. -/
theorem reach_trans {ns : List NonTerminalNode} {i j k : Nat}
    (hij : Reach ns i j) (hjk : Reach ns j k) : Reach ns i k := by
  induction hjk with
  | refl => exact hij
  | step _ hc ih => exact Reach.step ih hc

/-- The traversal only grows the visited set. -/
theorem addNonTerminal_subset_self (ns : List NonTerminalNode) :
    ∀ (fuel : Nat) (vis : List Nat) (i : Nat), vis ⊆ addNonTerminal ns fuel vis i := by
  intro fuel
  induction fuel with
  | zero => intro vis i; exact fun a h => h
  | succ n ih =>
    intro vis i
    simp only [addNonTerminal]
    split
    · exact fun a h => h
    · have hfold : ∀ (cs : List Nat) (v : List Nat),
          v ⊆ cs.foldl (fun v j => addNonTerminal ns n v j) v := by
        intro cs
        induction cs with
        | nil => intro v; exact fun a h => h
        | cons c t iht =>
          intro v
          simp only [List.foldl_cons]
          exact (ih v c).trans (iht _)
      exact (List.subset_cons_self i vis).trans (hfold _ _)

/-- The traversal never introduces a duplicate: a node already visited is not
re-added. -/
theorem addNonTerminal_nodup (ns : List NonTerminalNode) :
    ∀ (fuel : Nat) (vis : List Nat) (i : Nat),
      vis.Nodup → (addNonTerminal ns fuel vis i).Nodup := by
  intro fuel
  induction fuel with
  | zero => intro vis i h; exact h
  | succ n ih =>
    intro vis i h
    simp only [addNonTerminal]
    split
    · exact h
    · rename_i hmem
      have hfold : ∀ (cs : List Nat) (v : List Nat),
          v.Nodup → (cs.foldl (fun v j => addNonTerminal ns n v j) v).Nodup := by
        intro cs
        induction cs with
        | nil => intro v hv; exact hv
        | cons c t iht =>
          intro v hv
          simp only [List.foldl_cons]
          exact iht _ (ih v c hv)
      exact hfold _ _ (List.nodup_cons.mpr ⟨hmem, h⟩)

/-- Soundness: everything the traversal adds is reachable from the node it
was called on. -/
theorem addNonTerminal_sound (ns : List NonTerminalNode) :
    ∀ (fuel : Nat) (vis : List Nat) (i : Nat) (j : Nat),
      j ∈ addNonTerminal ns fuel vis i → j ∈ vis ∨ Reach ns i j := by
  intro fuel
  induction fuel with
  | zero => intro vis i j h; exact Or.inl h
  | succ n ih =>
    intro vis i j hj
    simp only [addNonTerminal] at hj
    split at hj
    · exact Or.inl hj
    · have hfold : ∀ (cs : List Nat) (v : List Nat),
          (∀ x ∈ v, x ∈ vis ∨ Reach ns i x) →
          (∀ c ∈ cs, Reach ns i c) →
          ∀ x ∈ cs.foldl (fun v j => addNonTerminal ns n v j) v,
            x ∈ vis ∨ Reach ns i x := by
        intro cs
        induction cs with
        | nil => intro v hv _ x hx; exact hv x hx
        | cons c t iht =>
          intro v hv hcs x hx
          simp only [List.foldl_cons] at hx
          refine iht _ ?_ (fun c' hc' => hcs c' (List.mem_cons_of_mem c hc')) x hx
          intro y hy
          rcases ih v c y hy with hyv | hyr
          · exact hv y hyv
          · exact Or.inr (reach_trans (hcs c (List.mem_cons_self c t)) hyr)
      refine hfold _ _ ?_ ?_ j hj
      · intro x hx
        rcases List.mem_cons.mp hx with hxi | hxv
        · exact Or.inr (hxi ▸ Reach.refl)
        · exact Or.inl hxv
      · intro c hc
        exact Reach.step Reach.refl hc

/-- Completeness with adequate fuel: calling the traversal on `i` with
visited set `vis` returns a superset of `vis` containing `i` in which every
node outside `vis` has all its children, provided `fuel` exceeds the number
of ids of the universe `U` not yet visited, `i` lies in `U`, and `U` is
closed under the child relation. -/
theorem addNonTerminal_complete (ns : List NonTerminalNode) (U : Finset Nat)
    (hU : ∀ (a : Nat), ∀ b ∈ childIds ns a, b ∈ U) :
    ∀ (fuel : Nat) (vis : List Nat) (i : Nat),
      i ∈ U → (U \ vis.toFinset).card < fuel →
      vis ⊆ addNonTerminal ns fuel vis i ∧
        i ∈ addNonTerminal ns fuel vis i ∧
        ∀ j ∈ addNonTerminal ns fuel vis i, j ∉ vis →
          ∀ c ∈ childIds ns j, c ∈ addNonTerminal ns fuel vis i := by
  intro fuel
  induction fuel with
  | zero => intro vis i _ hcard; omega
  | succ n ih =>
    intro vis i hiU hcard
    by_cases hmem : i ∈ vis
    · simp only [addNonTerminal, if_pos hmem]
      exact ⟨fun a h => h, hmem, fun j hj hj' => absurd hj hj'⟩
    · simp only [addNonTerminal, if_neg hmem]
      have hstep : (U \ (i :: vis).toFinset).card < n := by
        have hlt : (U \ (i :: vis).toFinset).card < (U \ vis.toFinset).card := by
          apply Finset.card_lt_card
          constructor
          · intro x hx
            rcases Finset.mem_sdiff.mp hx with ⟨hxU, hxv⟩
            refine Finset.mem_sdiff.mpr ⟨hxU, ?_⟩
            intro hc
            exact hxv (by simp [List.toFinset_cons, Finset.mem_insert, hc])
          · intro hsub
            have hi : i ∈ U \ vis.toFinset :=
              Finset.mem_sdiff.mpr ⟨hiU, by simpa using hmem⟩
            have := hsub hi
            rcases Finset.mem_sdiff.mp this with ⟨_, hni⟩
            exact hni (by simp)
        omega
      -- the fold over the children, with its invariant
      have hfold : ∀ (todo : List Nat) (v : List Nat),
          (∀ c ∈ todo, c ∈ U) →
          (i :: vis) ⊆ v →
          (U \ v.toFinset).card < n →
          (∀ j ∈ v, j ∉ vis → j = i ∨ ∀ c ∈ childIds ns j, c ∈ v) →
          v ⊆ todo.foldl (fun v j => addNonTerminal ns n v j) v ∧
            (∀ c ∈ todo, c ∈ todo.foldl (fun v j => addNonTerminal ns n v j) v) ∧
            ∀ j ∈ todo.foldl (fun v j => addNonTerminal ns n v j) v, j ∉ vis →
              j = i ∨ ∀ c ∈ childIds ns j,
                c ∈ todo.foldl (fun v j => addNonTerminal ns n v j) v := by
        intro todo
        induction todo with
        | nil =>
          intro v _ hv0 _ hinv
          exact ⟨fun a h => h, fun c hc => absurd hc (List.not_mem_nil c), hinv⟩
        | cons c t iht =>
          intro v htodo hv0 hcard' hinv
          simp only [List.foldl_cons]
          have hcU : c ∈ U := htodo c (List.mem_cons_self c t)
          obtain ⟨hsub_c, hc_in, hclosed_c⟩ := ih v c hcU hcard'
          have hcard'' : (U \ (addNonTerminal ns n v c).toFinset).card < n := by
            have : (U \ (addNonTerminal ns n v c).toFinset).card ≤ (U \ v.toFinset).card := by
              apply Finset.card_le_card
              intro x hx
              rcases Finset.mem_sdiff.mp hx with ⟨hxU, hxv⟩
              refine Finset.mem_sdiff.mpr ⟨hxU, fun hc' => hxv ?_⟩
              simp only [List.mem_toFinset] at hc' ⊢
              exact hsub_c hc'
            omega
          have hinv' : ∀ j ∈ addNonTerminal ns n v c, j ∉ vis →
              j = i ∨ ∀ c' ∈ childIds ns j, c' ∈ addNonTerminal ns n v c := by
            intro j hj hjvis
            by_cases hjv : j ∈ v
            · rcases hinv j hjv hjvis with h | h
              · exact Or.inl h
              · exact Or.inr (fun c' hc' => hsub_c (h c' hc'))
            · exact Or.inr (hclosed_c j hj hjv)
          obtain ⟨hsub_t, hmem_t, hclosed_t⟩ :=
            iht (addNonTerminal ns n v c)
              (fun c' hc' => htodo c' (List.mem_cons_of_mem c hc'))
              (hv0.trans hsub_c) hcard'' hinv'
          refine ⟨hsub_c.trans hsub_t, ?_, hclosed_t⟩
          intro c' hc'
          rcases List.mem_cons.mp hc' with h | h
          · exact h ▸ hsub_t hc_in
          · exact hmem_t c' h
      obtain ⟨hsub, hmem_all, hclosed⟩ :=
        hfold (childIds ns i) (i :: vis) (fun c hc => hU i c hc)
          (fun a h => h) hstep
          (by
            intro j hj hjvis
            rcases List.mem_cons.mp hj with h | h
            · exact Or.inl h
            · exact absurd h hjvis)
      refine ⟨(List.subset_cons_self i vis).trans hsub, hsub (List.mem_cons_self i vis), ?_⟩
      intro j hj hjvis c hc
      rcases hclosed j hj hjvis with h | h
      · subst h; exact hmem_all c hc
      · exact h c hc

/-- The child ids of any node lie in the id universe. -/
theorem childIds_mem_idUniverse (ns : List NonTerminalNode) (start : Nat) :
    ∀ (a : Nat), ∀ b ∈ childIds ns a, b ∈ idUniverse ns start := by
  intro a b hb
  unfold childIds alternativesOf at hb
  unfold idUniverse
  cases hns : ns[a]? with
  | none => rw [hns] at hb; simp at hb
  | some nd =>
    rw [hns] at hb
    have hnd : nd ∈ ns := by
      have := List.getElem?_eq_some_iff.mp hns
      rcases this with ⟨hlt, heq⟩
      exact heq ▸ List.getElem_mem hlt
    refine Finset.mem_insert.mpr (Or.inr (Finset.mem_union.mpr (Or.inr ?_)))
    rw [List.mem_toFinset]
    exact List.mem_flatMap.mpr ⟨nd, hnd, hb⟩

/-- C6: the traversal of `Grammar.__init__` terminates within its fuel on
every finite arena, adds every node at most once (the discovered list is
duplicate-free), and discovers exactly the non-terminals reachable from the
start by transitively following the non-terminal terms of alternatives. -/
theorem nonTerminals_nodup_and_closure (ns : List NonTerminalNode) (start : Nat) :
    (nonTerminals ns start).Nodup ∧
      ∀ j : Nat, j ∈ nonTerminals ns start ↔ Reach ns start j := by
  have hU := childIds_mem_idUniverse ns start
  have hstart : start ∈ idUniverse ns start := Finset.mem_insert_self _ _
  have hcard : ((idUniverse ns start) \ ([] : List Nat).toFinset).card < dfsFuel ns start := by
    simp [dfsFuel]
  obtain ⟨_, hstart_mem, hclosed⟩ :=
    addNonTerminal_complete ns (idUniverse ns start) hU (dfsFuel ns start) [] start
      hstart hcard
  constructor
  · exact addNonTerminal_nodup ns (dfsFuel ns start) [] start List.nodup_nil
  · intro j
    constructor
    · intro hj
      rcases addNonTerminal_sound ns (dfsFuel ns start) [] start j hj with h | h
      · exact absurd h (List.not_mem_nil j)
      · exact h
    · intro hr
      induction hr with
      | refl => exact hstart_mem
      | step _ hc ihr => exact hclosed _ ihr (List.not_mem_nil _) _ hc

/-! ## Association-list dictionary lemmas -/

theorem dictGet_dictSet_self (d : TokenDict) (k : Nat) (v : Finset Tok) :
    dictGet (dictSet d k v) k = v := by
  induction d with
  | nil => simp [dictGet, dictSet]
  | cons p rest ih =>
    by_cases h : p.1 = k
    · simp [dictGet, dictSet, h]
    · simp [dictGet, dictSet, h, ih]

theorem dictGet_dictSet_ne (d : TokenDict) (k k' : Nat) (v : Finset Tok)
    (h : k ≠ k') : dictGet (dictSet d k v) k' = dictGet d k' := by
  induction d with
  | nil => simp [dictGet, dictSet, h]
  | cons p rest ih =>
    by_cases hp : p.1 = k
    · simp [dictGet, dictSet, hp, h]
    · by_cases hp' : p.1 = k'
      · simp [dictGet, dictSet, hp, hp', Ne.symm h]
      · simp [dictGet, dictSet, hp, hp', ih]

theorem dictKeys_dictSet_of_mem (d : TokenDict) (k : Nat) (v : Finset Tok)
    (h : k ∈ dictKeys d) : dictKeys (dictSet d k v) = dictKeys d := by
  induction d with
  | nil => simp [dictKeys] at h
  | cons p rest ih =>
    by_cases hp : p.1 = k
    · simp [dictSet, dictKeys, hp]
    · have hr : k ∈ dictKeys rest := by
        rcases List.mem_cons.mp h with h' | h'
        · exact absurd h'.symm hp
        · exact h'
      simp [dictSet, dictKeys, hp]
      exact ih hr

theorem dictKeys_initDict (order : List Nat) : dictKeys (initDict order) = order := by
  induction order with
  | nil => rfl
  | cons i t ih => simp [initDict, dictKeys] at ih ⊢; exact ih

/-- Pointwise containment of result mappings: every set of `d` is contained in
the corresponding set of `d'`. -/
def DictLE (d d' : TokenDict) : Prop := ∀ k, dictGet d k ⊆ dictGet d' k

theorem DictLE.rfl (d : TokenDict) : DictLE d d := fun _ => Finset.Subset.refl _

theorem DictLE.trans {a b c : TokenDict} (h1 : DictLE a b) (h2 : DictLE b c) :
    DictLE a c := fun k => (h1 k).trans (h2 k)

/-- Replacing one entry by a superset of its value only grows the mapping. -/
theorem dictLE_dictSet_superset {d : TokenDict} {k : Nat} {v : Finset Tok}
    (h : dictGet d k ⊆ v) : DictLE d (dictSet d k v) := by
  intro k'
  by_cases hk : k = k'
  · subst hk; rw [dictGet_dictSet_self]; exact h
  · rw [dictGet_dictSet_ne d k k' v hk]

/-! ## Monotonicity of the solver passes -/

theorem firstScanExpansion_mono (i : Nat) :
    ∀ (e : Expansion) (res : TokenDict) (ch : Bool),
      DictLE res (firstScanExpansion i e res ch).1 := by
  intro e
  induction e with
  | nil =>
    intro res ch
    simp only [firstScanExpansion]
    split
    · exact DictLE.rfl res
    · exact dictLE_dictSet_superset (Finset.subset_insert _ _)
  | cons s rest ih =>
    intro res ch
    simp only [firstScanExpansion]
    have hacc : DictLE res
        (if firstSymbolSet res s ⊆ dictGet res i then (res, ch)
          else (dictSet res i (dictGet res i ∪ firstSymbolSet res s), true)).1 := by
      split
      · exact DictLE.rfl res
      · exact dictLE_dictSet_superset Finset.subset_union_left
    split
    · exact hacc.trans (ih _ _)
    · exact hacc

theorem firstScanNonTerminal_mono (ns : List NonTerminalNode) (i : Nat) :
    ∀ (es : List Expansion) (acc : TokenDict × Bool),
      DictLE acc.1 ((es.foldl (fun a e => firstScanExpansion i e a.1 a.2) acc)).1 := by
  intro es
  induction es with
  | nil => intro acc; exact DictLE.rfl _
  | cons e t ih =>
    intro acc
    simp only [List.foldl_cons]
    exact (firstScanExpansion_mono i e acc.1 acc.2).trans (ih _)

theorem firstPass_mono (ns : List NonTerminalNode) (order : List Nat) (res : TokenDict) :
    DictLE res (firstPass ns order res).1 := by
  unfold firstPass
  have hfold : ∀ (l : List Nat) (acc : TokenDict × Bool),
      DictLE acc.1 ((l.foldl (fun a i => firstScanNonTerminal ns i a) acc)).1 := by
    intro l
    induction l with
    | nil => intro acc; exact DictLE.rfl _
    | cons i t ih =>
      intro acc
      simp only [List.foldl_cons]
      exact (firstScanNonTerminal_mono ns i _ acc).trans (ih _)
  exact hfold order (res, false)

theorem firstIterate_mono (ns : List NonTerminalNode) (order : List Nat) :
    ∀ (fuel : Nat) (res : TokenDict), DictLE res (firstIterate ns order fuel res) := by
  intro fuel
  induction fuel with
  | zero => intro res; exact DictLE.rfl _
  | succ n ih =>
    intro res
    simp only [firstIterate]
    split
    · exact (firstPass_mono ns order res).trans (ih _)
    · exact firstPass_mono ns order res

theorem followStep_mono (fs : TokenDict) (acc : TokenDict × Bool × Finset Tok)
    (s : Symbol) : DictLE acc.1 (followStep fs acc s).1 := by
  cases s with
  | terminal t => exact DictLE.rfl _
  | nonTerminal j =>
    simp only [followStep]
    split
    · exact DictLE.rfl _
    · exact dictLE_dictSet_superset Finset.subset_union_left

theorem followScanExpansion_mono (fs : TokenDict) (i : Nat) (e : Expansion)
    (res : TokenDict) (ch : Bool) : DictLE res (followScanExpansion fs i e res ch).1 := by
  unfold followScanExpansion
  have hfold : ∀ (l : List Symbol) (acc : TokenDict × Bool × Finset Tok),
      DictLE acc.1 ((l.foldl (followStep fs) acc)).1 := by
    intro l
    induction l with
    | nil => intro acc; exact DictLE.rfl _
    | cons s t ih =>
      intro acc
      simp only [List.foldl_cons]
      exact (followStep_mono fs acc s).trans (ih _)
  exact hfold e.reverse (res, ch, dictGet res i)

theorem followScanNonTerminal_mono (ns : List NonTerminalNode) (fs : TokenDict)
    (i : Nat) (acc : TokenDict × Bool) :
    DictLE acc.1 (followScanNonTerminal ns fs i acc).1 := by
  unfold followScanNonTerminal
  have hfold : ∀ (l : List Expansion) (acc : TokenDict × Bool),
      DictLE acc.1 ((l.foldl (fun a e => followScanExpansion fs i e a.1 a.2) acc)).1 := by
    intro l
    induction l with
    | nil => intro acc; exact DictLE.rfl _
    | cons e t ih =>
      intro acc
      simp only [List.foldl_cons]
      exact (followScanExpansion_mono fs i e acc.1 acc.2).trans (ih _)
  exact hfold _ acc

theorem followPass_mono (ns : List NonTerminalNode) (fs : TokenDict)
    (order : List Nat) (res : TokenDict) : DictLE res (followPass ns fs order res).1 := by
  unfold followPass
  have hfold : ∀ (l : List Nat) (acc : TokenDict × Bool),
      DictLE acc.1 ((l.foldl (fun a i => followScanNonTerminal ns fs i a) acc)).1 := by
    intro l
    induction l with
    | nil => intro acc; exact DictLE.rfl _
    | cons i t ih =>
      intro acc
      simp only [List.foldl_cons]
      exact (followScanNonTerminal_mono ns fs i acc).trans (ih _)
  exact hfold order (res, false)

theorem followIterate_mono (ns : List NonTerminalNode) (fs : TokenDict)
    (order : List Nat) : ∀ (fuel : Nat) (res : TokenDict),
      DictLE res (followIterate ns fs order fuel res) := by
  intro fuel
  induction fuel with
  | zero => intro res; exact DictLE.rfl _
  | succ n ih =>
    intro res
    simp only [followIterate]
    split
    · exact (followPass_mono ns fs order res).trans (ih _)
    · exact followPass_mono ns fs order res

/-- C3: for every grammar, the set `follow_sets()` assigns to the start
non-terminal contains the end marker: the seeding
`result[self.starting_non_terminal].add(None)` happens before the fixpoint
loop and the loop only ever grows the result sets. -/
theorem follow_sets_start_has_end_marker (g : Grammar) :
    none ∈ dictGet g.follow_sets g.starting_non_terminal := by
  unfold Grammar.follow_sets followSetsFrom
  apply followIterate_mono _ _ _ _ _ g.starting_non_terminal
  rw [dictGet_dictSet_self]
  exact Finset.mem_insert_self _ _

/-! ## The solvers preserve the key set of their result mapping -/

theorem mem_ntIdsOfExpansion {e : Expansion} {j : Nat} :
    j ∈ ntIdsOfExpansion e ↔ Symbol.nonTerminal j ∈ e := by
  unfold ntIdsOfExpansion
  rw [List.mem_filterMap]
  constructor
  · rintro ⟨s, hs, hf⟩
    cases s with
    | terminal t => simp at hf
    | nonTerminal k => simp at hf; exact hf ▸ hs
  · intro h
    exact ⟨Symbol.nonTerminal j, h, rfl⟩

theorem firstScanExpansion_keys (i : Nat) :
    ∀ (e : Expansion) (res : TokenDict) (ch : Bool), i ∈ dictKeys res →
      dictKeys (firstScanExpansion i e res ch).1 = dictKeys res := by
  intro e
  induction e with
  | nil =>
    intro res ch hi
    simp only [firstScanExpansion]
    split
    · rfl
    · exact dictKeys_dictSet_of_mem res i _ hi
  | cons s rest ih =>
    intro res ch hi
    simp only [firstScanExpansion]
    set acc :=
      if firstSymbolSet res s ⊆ dictGet res i then (res, ch)
      else (dictSet res i (dictGet res i ∪ firstSymbolSet res s), true) with hacc
    have hkeys : dictKeys acc.1 = dictKeys res := by
      rw [hacc]
      split
      · rfl
      · exact dictKeys_dictSet_of_mem res i _ hi
    split
    · rw [ih acc.1 acc.2 (hkeys ▸ hi), hkeys]
    · exact hkeys

theorem firstScanNonTerminal_keys (ns : List NonTerminalNode) (i : Nat) :
    ∀ (es : List Expansion) (acc : TokenDict × Bool), i ∈ dictKeys acc.1 →
      dictKeys ((es.foldl (fun a e => firstScanExpansion i e a.1 a.2) acc)).1
        = dictKeys acc.1 := by
  intro es
  induction es with
  | nil => intro acc _; rfl
  | cons e t ih =>
    intro acc hi
    simp only [List.foldl_cons]
    have h1 := firstScanExpansion_keys i e acc.1 acc.2 hi
    rw [ih _ (h1 ▸ hi), h1]

theorem firstPass_keys (ns : List NonTerminalNode) :
    ∀ (order : List Nat) (acc : TokenDict × Bool),
      (∀ i ∈ order, i ∈ dictKeys acc.1) →
      dictKeys ((order.foldl (fun a i => firstScanNonTerminal ns i a) acc)).1
        = dictKeys acc.1 := by
  intro order
  induction order with
  | nil => intro acc _; rfl
  | cons i t ih =>
    intro acc h
    simp only [List.foldl_cons]
    have h1 : dictKeys (firstScanNonTerminal ns i acc).1 = dictKeys acc.1 :=
      firstScanNonTerminal_keys ns i _ acc (h i (List.mem_cons_self i t))
    rw [ih _ (fun i' hi' => h1 ▸ h i' (List.mem_cons_of_mem i hi')), h1]

theorem firstIterate_keys (ns : List NonTerminalNode) (order : List Nat) :
    ∀ (fuel : Nat) (res : TokenDict), (∀ i ∈ order, i ∈ dictKeys res) →
      dictKeys (firstIterate ns order fuel res) = dictKeys res := by
  intro fuel
  induction fuel with
  | zero => intro res _; rfl
  | succ n ih =>
    intro res h
    simp only [firstIterate]
    have h1 : dictKeys (firstPass ns order res).1 = dictKeys res :=
      firstPass_keys ns order (res, false) h
    split
    · rw [ih _ (fun i hi => h1 ▸ h i hi), h1]
    · exact h1

/-- The key list of the FIRST result is exactly the iteration order (the
discovered list): every discovered non-terminal gets its entry at
initialization and updates never add or drop a key. -/
theorem firstSetsFrom_keys (ns : List NonTerminalNode) (order : List Nat) :
    dictKeys (firstSetsFrom ns order) = order := by
  unfold firstSetsFrom
  have h0 : ∀ i ∈ order, i ∈ dictKeys (initDict order) := by
    intro i hi; rw [dictKeys_initDict]; exact hi
  rw [firstIterate_keys ns order _ (initDict order) h0, dictKeys_initDict]

theorem followStep_keys (fs : TokenDict) (acc : TokenDict × Bool × Finset Tok)
    (s : Symbol) (h : ∀ j : Nat, s = Symbol.nonTerminal j → j ∈ dictKeys acc.1) :
    dictKeys (followStep fs acc s).1 = dictKeys acc.1 := by
  cases s with
  | terminal t => rfl
  | nonTerminal j =>
    simp only [followStep]
    split
    · rfl
    · exact dictKeys_dictSet_of_mem acc.1 j _ (h j rfl)

theorem followFold_keys (fs : TokenDict) :
    ∀ (l : List Symbol) (acc : TokenDict × Bool × Finset Tok),
      (∀ j : Nat, Symbol.nonTerminal j ∈ l → j ∈ dictKeys acc.1) →
      dictKeys ((l.foldl (followStep fs) acc)).1 = dictKeys acc.1 := by
  intro l
  induction l with
  | nil => intro acc _; rfl
  | cons s t ih =>
    intro acc h
    simp only [List.foldl_cons]
    have h1 : dictKeys (followStep fs acc s).1 = dictKeys acc.1 :=
      followStep_keys fs acc s (fun j hj => h j (hj ▸ List.mem_cons_self s t))
    rw [ih _ (fun j hj => h1 ▸ h j (List.mem_cons_of_mem s hj)), h1]

theorem followScanExpansion_keys (fs : TokenDict) (i : Nat) (e : Expansion)
    (res : TokenDict) (ch : Bool)
    (h : ∀ j : Nat, Symbol.nonTerminal j ∈ e → j ∈ dictKeys res) :
    dictKeys (followScanExpansion fs i e res ch).1 = dictKeys res := by
  unfold followScanExpansion
  exact followFold_keys fs e.reverse (res, ch, dictGet res i)
    (fun j hj => h j (List.mem_reverse.mp hj))

theorem followScanNonTerminal_keys (ns : List NonTerminalNode) (fs : TokenDict)
    (i : Nat) (acc : TokenDict × Bool)
    (h : ∀ j ∈ childIds ns i, j ∈ dictKeys acc.1) :
    dictKeys (followScanNonTerminal ns fs i acc).1 = dictKeys acc.1 := by
  unfold followScanNonTerminal
  have hfold : ∀ (es : List Expansion) (acc : TokenDict × Bool),
      (∀ e ∈ es, ∀ j : Nat, Symbol.nonTerminal j ∈ e → j ∈ dictKeys acc.1) →
      dictKeys ((es.foldl (fun a e => followScanExpansion fs i e a.1 a.2) acc)).1
        = dictKeys acc.1 := by
    intro es
    induction es with
    | nil => intro acc _; rfl
    | cons e t ih =>
      intro acc he
      simp only [List.foldl_cons]
      have h1 := followScanExpansion_keys fs i e acc.1 acc.2
        (he e (List.mem_cons_self e t))
      rw [ih _ (fun e' he' j hj => h1 ▸ he e' (List.mem_cons_of_mem e he') j hj), h1]
  refine hfold _ acc ?_
  intro e he j hj
  refine h j ?_
  unfold childIds
  exact List.mem_flatMap.mpr ⟨e, he, mem_ntIdsOfExpansion.mpr hj⟩

theorem followPass_keys (ns : List NonTerminalNode) (fs : TokenDict) :
    ∀ (order : List Nat) (acc : TokenDict × Bool),
      (∀ i ∈ order, ∀ j ∈ childIds ns i, j ∈ dictKeys acc.1) →
      dictKeys ((order.foldl (fun a i => followScanNonTerminal ns fs i a) acc)).1
        = dictKeys acc.1 := by
  intro order
  induction order with
  | nil => intro acc _; rfl
  | cons i t ih =>
    intro acc h
    simp only [List.foldl_cons]
    have h1 := followScanNonTerminal_keys ns fs i acc (h i (List.mem_cons_self i t))
    rw [ih _ (fun i' hi' j hj => h1 ▸ h i' (List.mem_cons_of_mem i hi') j hj), h1]

theorem followIterate_keys (ns : List NonTerminalNode) (fs : TokenDict)
    (order : List Nat) :
    ∀ (fuel : Nat) (res : TokenDict),
      (∀ i ∈ order, ∀ j ∈ childIds ns i, j ∈ dictKeys res) →
      dictKeys (followIterate ns fs order fuel res) = dictKeys res := by
  intro fuel
  induction fuel with
  | zero => intro res _; rfl
  | succ n ih =>
    intro res h
    simp only [followIterate]
    have h1 : dictKeys (followPass ns fs order res).1 = dictKeys res :=
      followPass_keys ns fs order (res, false) h
    split
    · rw [ih _ (fun i hi j hj => h1 ▸ h i hi j hj), h1]
    · exact h1

/-- C10: for a grammar built by `Grammar.__init__`, the key lists of the
mappings returned by `first_sets()` and by `follow_sets()` are exactly the
discovered `non_terminals` list — every discovered non-terminal has an entry
(initialized before iteration) and no other key ever appears (every update
hits a key of the discovered set, because the discovered set is closed under
the child relation). -/
theorem solver_result_keys (ns : List NonTerminalNode) (start : Nat) :
    dictKeys ((Grammar.make ns start).first_sets) = (Grammar.make ns start).non_terminals ∧
      dictKeys ((Grammar.make ns start).follow_sets) = (Grammar.make ns start).non_terminals := by
  obtain ⟨-, hreach⟩ := nonTerminals_nodup_and_closure ns start
  have hstart : start ∈ nonTerminals ns start := (hreach start).mpr Reach.refl
  have hclosed : ∀ i ∈ nonTerminals ns start, ∀ j ∈ childIds ns i,
      j ∈ nonTerminals ns start := by
    intro i hi j hj
    exact (hreach j).mpr (Reach.step ((hreach i).mp hi) hj)
  constructor
  · exact firstSetsFrom_keys ns (nonTerminals ns start)
  · show dictKeys (followSetsFrom ns start (nonTerminals ns start)) = nonTerminals ns start
    unfold followSetsFrom
    have hkeys0 : dictKeys (dictSet (initDict (nonTerminals ns start)) start
        (insert none (dictGet (initDict (nonTerminals ns start)) start)))
        = nonTerminals ns start := by
      rw [dictKeys_dictSet_of_mem _ _ _ ((dictKeys_initDict _) ▸ hstart),
        dictKeys_initDict]
    have h0 : ∀ i ∈ nonTerminals ns start, ∀ j ∈ childIds ns i,
        j ∈ dictKeys (dictSet (initDict (nonTerminals ns start)) start
          (insert none (dictGet (initDict (nonTerminals ns start)) start))) := by
      intro i hi j hj
      rw [hkeys0]
      exact hclosed i hi j hj
    rw [followIterate_keys ns _ _ _ _ h0, hkeys0]

/-! ## Order-independence of `first_sets`

The FIRST solver is characterized as the least mapping closed under the
per-expansion scan rule; the characterization is independent of the set
iteration order, so two invocations of `first_sets()` on an unchanged graph
return set-for-set identical mappings even if Python enumerates the
`self.non_terminals` set differently. -/

/-- The contribution one expansion of non-terminal `i` makes to `FIRST(i)`
relative to a fixed mapping: the union of the first sets of the scanned
prefix (the scan stops after the first symbol whose first set lacks the
nullable marker), plus the nullable marker when the whole expansion is
scanned through. -/
def firstContrib (res : TokenDict) : Expansion → Finset Tok
  | [] => {none}
  | s :: rest =>
    let f := firstSymbolSet res s
    if none ∈ f then f ∪ firstContrib res rest else f

/-- A mapping is closed for an iteration order when every expansion's
contribution is already contained in its non-terminal's set. -/
def FirstClosed (ns : List NonTerminalNode) (order : List Nat) (res : TokenDict) : Prop :=
  ∀ i ∈ order, ∀ e ∈ alternativesOf ns i, firstContrib res e ⊆ dictGet res i

theorem dictGet_initDict (order : List Nat) (k : Nat) :
    dictGet (initDict order) k = ∅ := by
  induction order with
  | nil => rfl
  | cons i t ih =>
    simp only [initDict, List.map_cons, dictGet]
    split
    · rfl
    · exact ih

theorem firstSymbolSet_le {res m : TokenDict} (h : DictLE res m) (s : Symbol) :
    firstSymbolSet res s ⊆ firstSymbolSet m s := by
  cases s with
  | terminal t => exact Finset.Subset.refl _
  | nonTerminal j => exact h j

theorem firstContrib_mono {res m : TokenDict} (h : DictLE res m) :
    ∀ e : Expansion, firstContrib res e ⊆ firstContrib m e := by
  intro e
  induction e with
  | nil => exact Finset.Subset.refl _
  | cons s rest ih =>
    simp only [firstContrib]
    by_cases hn : none ∈ firstSymbolSet res s
    · have hn' : none ∈ firstSymbolSet m s := firstSymbolSet_le h s hn
      rw [if_pos hn, if_pos hn']
      exact Finset.union_subset_union (firstSymbolSet_le h s) ih
    · rw [if_neg hn]
      split
      · exact (firstSymbolSet_le h s).trans Finset.subset_union_left
      · exact firstSymbolSet_le h s

/-- Pointwise-bounded update: replacing an entry with a value below the
target keeps the whole mapping below the target. -/
theorem dictSet_le {res m : TokenDict} {i : Nat} {v : Finset Tok}
    (h : DictLE res m) (hv : v ⊆ dictGet m i) : DictLE (dictSet res i v) m := by
  intro k
  by_cases hk : i = k
  · subst hk; rw [dictGet_dictSet_self]; exact hv
  · rw [dictGet_dictSet_ne res i k v hk]; exact h k

/-- Soundness of the expansion scan: scanning below a closed target keeps the
result below the target. -/
theorem firstScanExpansion_le (i : Nat) :
    ∀ (e : Expansion) (res m : TokenDict) (ch : Bool), DictLE res m →
      firstContrib m e ⊆ dictGet m i →
      DictLE (firstScanExpansion i e res ch).1 m := by
  intro e
  induction e with
  | nil =>
    intro res m ch hle hcontrib
    simp only [firstScanExpansion]
    split
    · exact hle
    · refine dictSet_le hle ?_
      refine Finset.insert_subset ?_ (hle i)
      exact hcontrib (Finset.mem_singleton_self none)
  | cons s rest ih =>
    intro res m ch hle hcontrib
    simp only [firstScanExpansion]
    have hfm : firstSymbolSet m s ⊆ dictGet m i := by
      refine Finset.Subset.trans ?_ hcontrib
      simp only [firstContrib]
      split
      · exact Finset.subset_union_left
      · exact Finset.Subset.refl _
    have hf : firstSymbolSet res s ⊆ dictGet m i :=
      (firstSymbolSet_le hle s).trans hfm
    have hacc : DictLE
        (if firstSymbolSet res s ⊆ dictGet res i then (res, ch)
          else (dictSet res i (dictGet res i ∪ firstSymbolSet res s), true)).1 m := by
      split
      · exact hle
      · exact dictSet_le hle (Finset.union_subset (hle i) hf)
    split
    · rename_i hns
      refine ih _ m _ hacc ?_
      have hnm : none ∈ firstSymbolSet m s := firstSymbolSet_le hle s hns
      refine Finset.Subset.trans ?_ hcontrib
      simp only [firstContrib, if_pos hnm]
      exact Finset.subset_union_right
    · exact hacc

theorem firstScanNonTerminal_le {ns : List NonTerminalNode} {m : TokenDict} (i : Nat)
    (hcl : ∀ e ∈ alternativesOf ns i, firstContrib m e ⊆ dictGet m i) :
    ∀ (es : List Expansion) (acc : TokenDict × Bool),
      (∀ e ∈ es, e ∈ alternativesOf ns i) → DictLE acc.1 m →
      DictLE ((es.foldl (fun a e => firstScanExpansion i e a.1 a.2) acc)).1 m := by
  intro es
  induction es with
  | nil => intro acc _ hle; exact hle
  | cons e t ihe =>
    intro acc hes hle
    simp only [List.foldl_cons]
    refine ihe _ (fun e' he' => hes e' (List.mem_cons_of_mem e he')) ?_
    exact firstScanExpansion_le i e acc.1 m acc.2 hle
      (hcl e (hes e (List.mem_cons_self e t)))

theorem firstPass_le {ns : List NonTerminalNode} {m : TokenDict} {order : List Nat}
    (hcl : FirstClosed ns order m) :
    ∀ (l : List Nat) (acc : TokenDict × Bool),
      (∀ i ∈ l, i ∈ order) → DictLE acc.1 m →
      DictLE ((l.foldl (fun a i => firstScanNonTerminal ns i a) acc)).1 m := by
  intro l
  induction l with
  | nil => intro acc _ hle; exact hle
  | cons i t ih =>
    intro acc hl hle
    simp only [List.foldl_cons]
    refine ih _ (fun i' hi' => hl i' (List.mem_cons_of_mem i hi')) ?_
    exact firstScanNonTerminal_le i (hcl i (hl i (List.mem_cons_self i t)))
      (alternativesOf ns i) acc (fun e he => he) hle

theorem firstIterate_le {ns : List NonTerminalNode} {m : TokenDict} {order : List Nat}
    (hcl : FirstClosed ns order m) :
    ∀ (fuel : Nat) (res : TokenDict), DictLE res m →
      DictLE (firstIterate ns order fuel res) m := by
  intro fuel
  induction fuel with
  | zero => intro res hle; exact hle
  | succ n ih =>
    intro res hle
    simp only [firstIterate]
    have hpass : DictLE (firstPass ns order res).1 m :=
      firstPass_le hcl order (res, false) (fun i hi => hi) hle
    split
    · exact ih _ hpass
    · exact hpass

/-! ### The `changed` flag is sticky, and an unchanged pass is a no-op -/

theorem firstScanExpansion_sticky (i : Nat) :
    ∀ (e : Expansion) (res : TokenDict), (firstScanExpansion i e res true).2 = true := by
  intro e
  induction e with
  | nil =>
    intro res
    simp only [firstScanExpansion]
    split <;> rfl
  | cons s rest ih =>
    intro res
    simp only [firstScanExpansion]
    set acc :=
      if firstSymbolSet res s ⊆ dictGet res i then (res, true)
      else (dictSet res i (dictGet res i ∪ firstSymbolSet res s), true) with hacc
    have h2 : acc.2 = true := by rw [hacc]; split <;> rfl
    split
    · rw [show acc.2 = true from h2]; exact ih acc.1
    · exact h2

theorem firstScanExpansion_false (i : Nat) :
    ∀ (e : Expansion) (res : TokenDict) (ch : Bool),
      (firstScanExpansion i e res ch).2 = false →
      ch = false ∧ (firstScanExpansion i e res ch).1 = res := by
  intro e
  induction e with
  | nil =>
    intro res ch h
    simp only [firstScanExpansion] at h ⊢
    split at h
    · rename_i hn; simp only [if_pos hn]; exact ⟨h, by trivial⟩
    · simp at h
  | cons s rest ih =>
    intro res ch h
    simp only [firstScanExpansion] at h ⊢
    by_cases hsub : firstSymbolSet res s ⊆ dictGet res i
    · rw [if_pos hsub] at h ⊢
      by_cases hn : none ∈ firstSymbolSet res s
      · rw [if_pos hn] at h ⊢
        exact ih res ch h
      · rw [if_neg hn] at h ⊢
        exact ⟨h, rfl⟩
    · rw [if_neg hsub] at h
      by_cases hn : none ∈ firstSymbolSet res s
      · rw [if_pos hn] at h
        rw [firstScanExpansion_sticky i rest _] at h
        exact absurd h (by simp)
      · rw [if_neg hn] at h
        exact absurd h (by simp)

/-- An unchanged scan of expansion `e` for non-terminal `i` means `e`'s
contribution is already contained in `i`'s set. -/
theorem firstScanExpansion_closed (i : Nat) :
    ∀ (e : Expansion) (res : TokenDict),
      (firstScanExpansion i e res false).2 = false →
      firstContrib res e ⊆ dictGet res i := by
  intro e
  induction e with
  | nil =>
    intro res h
    simp only [firstScanExpansion] at h
    split at h
    · rename_i hn
      simp only [firstContrib]
      exact Finset.singleton_subset_iff.mpr hn
    · simp at h
  | cons s rest ih =>
    intro res h
    simp only [firstScanExpansion] at h
    by_cases hsub : firstSymbolSet res s ⊆ dictGet res i
    · rw [if_pos hsub] at h
      simp only [firstContrib]
      by_cases hn : none ∈ firstSymbolSet res s
      · rw [if_pos hn] at h ⊢
        exact Finset.union_subset hsub (ih res h)
      · rw [if_neg hn] at h ⊢
        exact hsub
    · rw [if_neg hsub] at h
      by_cases hn : none ∈ firstSymbolSet res s
      · rw [if_pos hn] at h
        rw [firstScanExpansion_sticky i rest _] at h
        exact absurd h (by simp)
      · rw [if_neg hn] at h
        exact absurd h (by simp)

theorem firstExpansionFold_sticky (i : Nat) :
    ∀ (es : List Expansion) (acc : TokenDict × Bool), acc.2 = true →
      ((es.foldl (fun a e => firstScanExpansion i e a.1 a.2) acc)).2 = true := by
  intro es
  induction es with
  | nil => intro acc h; exact h
  | cons e t ih =>
    intro acc h
    simp only [List.foldl_cons]
    refine ih _ ?_
    rw [h]
    exact firstScanExpansion_sticky i e acc.1

theorem firstExpansionFold_false (i : Nat) :
    ∀ (es : List Expansion) (acc : TokenDict × Bool),
      ((es.foldl (fun a e => firstScanExpansion i e a.1 a.2) acc)).2 = false →
      acc.2 = false ∧
        ((es.foldl (fun a e => firstScanExpansion i e a.1 a.2) acc)).1 = acc.1 := by
  intro es
  induction es with
  | nil => intro acc h; exact ⟨h, rfl⟩
  | cons e t ih =>
    intro acc h
    simp only [List.foldl_cons] at h ⊢
    obtain ⟨h1, h2⟩ := ih _ h
    obtain ⟨h3, h4⟩ := firstScanExpansion_false i e acc.1 acc.2 h1
    exact ⟨h3, by rw [h2, h4]⟩

/-- An unchanged scan of all expansions of `i` from a `false` flag means
every expansion was scanned against `res` itself without change. -/
theorem firstExpansionFold_false_elem (i : Nat) :
    ∀ (es : List Expansion) (res : TokenDict),
      ((es.foldl (fun a e => firstScanExpansion i e a.1 a.2) ((res, false) : TokenDict × Bool))).2 = false →
      ∀ e ∈ es, (firstScanExpansion i e res false).2 = false := by
  intro es
  induction es with
  | nil => intro res _ e he; exact absurd he (List.not_mem_nil e)
  | cons e t ih =>
    intro res h e' he'
    simp only [List.foldl_cons] at h
    have h1 : (firstScanExpansion i e res false).2 = false := by
      by_contra hne
      have : (firstScanExpansion i e res false).2 = true := by
        cases hb : (firstScanExpansion i e res false).2
        · exact absurd hb hne
        · rfl
      rw [firstExpansionFold_sticky i t _ this] at h
      exact absurd h (by simp)
    have h2 : (firstScanExpansion i e res false).1 = res :=
      (firstScanExpansion_false i e res false h1).2
    rcases List.mem_cons.mp he' with h' | h'
    · exact h' ▸ h1
    · refine ih res ?_ e' h'
      have : (firstScanExpansion i e res false) = ((res, false) : TokenDict × Bool) := by
        exact Prod.ext h2 h1
      rw [this] at h
      exact h

theorem firstScanNonTerminal_false (ns : List NonTerminalNode) (i : Nat)
    (acc : TokenDict × Bool) (h : (firstScanNonTerminal ns i acc).2 = false) :
    acc.2 = false ∧ (firstScanNonTerminal ns i acc).1 = acc.1 := by
  unfold firstScanNonTerminal at h ⊢
  exact firstExpansionFold_false i _ acc h

theorem firstScanNonTerminal_sticky (ns : List NonTerminalNode) (i : Nat)
    (acc : TokenDict × Bool) (h : acc.2 = true) :
    (firstScanNonTerminal ns i acc).2 = true := by
  unfold firstScanNonTerminal
  exact firstExpansionFold_sticky i _ acc h

theorem firstNTFold_sticky (ns : List NonTerminalNode) :
    ∀ (l : List Nat) (acc : TokenDict × Bool), acc.2 = true →
      ((l.foldl (fun a i => firstScanNonTerminal ns i a) acc)).2 = true := by
  intro l
  induction l with
  | nil => intro acc h; exact h
  | cons i t ih =>
    intro acc h
    simp only [List.foldl_cons]
    exact ih _ (firstScanNonTerminal_sticky ns i acc h)

/-- A stable pass means the mapping is closed for the iteration order. -/
theorem firstPass_stable_closed (ns : List NonTerminalNode) :
    ∀ (l : List Nat) (res : TokenDict),
      ((l.foldl (fun a i => firstScanNonTerminal ns i a) ((res, false) : TokenDict × Bool))).2 = false →
      ∀ i ∈ l, ∀ e ∈ alternativesOf ns i, firstContrib res e ⊆ dictGet res i := by
  intro l
  induction l with
  | nil => intro res _ i hi; exact absurd hi (List.not_mem_nil i)
  | cons i t ih =>
    intro res h i' hi' e he
    simp only [List.foldl_cons] at h
    have h1 : (firstScanNonTerminal ns i (res, false)).2 = false := by
      by_contra hne
      have : (firstScanNonTerminal ns i ((res, false) : TokenDict × Bool)).2 = true := by
        cases hb : (firstScanNonTerminal ns i ((res, false) : TokenDict × Bool)).2
        · exact absurd hb hne
        · rfl
      rw [firstNTFold_sticky ns t _ this] at h
      exact absurd h (by simp)
    have h2 : (firstScanNonTerminal ns i ((res, false) : TokenDict × Bool)).1 = res :=
      (firstScanNonTerminal_false ns i _ h1).2
    rcases List.mem_cons.mp hi' with h' | h'
    · subst h'
      refine firstScanExpansion_closed i' e res ?_
      refine firstExpansionFold_false_elem i' _ res ?_ e he
      unfold firstScanNonTerminal at h1
      exact h1
    · refine ih res ?_ i' h' e he
      have : (firstScanNonTerminal ns i ((res, false) : TokenDict × Bool))
          = ((res, false) : TokenDict × Bool) := Prod.ext h2 h1
      rw [this] at h
      exact h

/-! ### Fuel sufficiency: every changed pass strictly grows the total size,
which is bounded, so the loop reaches a stable pass within `solveFuel`. -/

/-- The total size of all result sets. -/
def dictSize (d : TokenDict) : Nat := (d.map (fun p => p.2.card)).sum

theorem dictSize_dictSet_le (d : TokenDict) (k : Nat) (v : Finset Tok)
    (h : dictGet d k ⊆ v) : dictSize d ≤ dictSize (dictSet d k v) := by
  induction d with
  | nil => simp [dictSize, dictSet]
  | cons p rest ih =>
    by_cases hp : p.1 = k
    · simp only [dictSet, if_pos hp, dictSize, List.map_cons, List.sum_cons]
      have : dictGet (p :: rest) k = p.2 := by simp [dictGet, hp]
      have hc : p.2.card ≤ v.card := Finset.card_le_card (this ▸ h)
      omega
    · simp only [dictSet, if_neg hp, dictSize, List.map_cons, List.sum_cons]
      have : dictGet (p :: rest) k = dictGet rest k := by simp [dictGet, hp]
      have := ih (this ▸ h)
      simp only [dictSize] at this
      omega

theorem dictSize_dictSet_lt (d : TokenDict) (k : Nat) (v : Finset Tok)
    (h : dictGet d k ⊂ v) : dictSize d < dictSize (dictSet d k v) := by
  induction d with
  | nil =>
    simp only [dictSize, dictSet, List.map_nil, List.sum_nil, List.map_cons, List.sum_cons,
      List.sum_nil]
    have : (∅ : Finset Tok) ⊂ v := by
      simpa [dictGet] using h
    have := Finset.card_pos.mpr (Finset.empty_ssubset.mp this)
    omega
  | cons p rest ih =>
    by_cases hp : p.1 = k
    · simp only [dictSet, if_pos hp, dictSize, List.map_cons, List.sum_cons]
      have hg : dictGet (p :: rest) k = p.2 := by simp [dictGet, hp]
      have hc : p.2.card < v.card := Finset.card_lt_card (hg ▸ h)
      omega
    · simp only [dictSet, if_neg hp, dictSize, List.map_cons, List.sum_cons]
      have hg : dictGet (p :: rest) k = dictGet rest k := by simp [dictGet, hp]
      have := ih (hg ▸ h)
      simp only [dictSize] at this
      omega

theorem firstScanExpansion_size (i : Nat) :
    ∀ (e : Expansion) (res : TokenDict) (ch : Bool),
      dictSize res ≤ dictSize (firstScanExpansion i e res ch).1 ∧
        ((firstScanExpansion i e res ch).2 = true →
          ch = true ∨ dictSize res < dictSize (firstScanExpansion i e res ch).1) := by
  intro e
  induction e with
  | nil =>
    intro res ch
    simp only [firstScanExpansion]
    split
    · exact ⟨Nat.le_refl _, fun h => Or.inl h⟩
    · rename_i hn
      have hlt : dictSize res < dictSize (dictSet res i (insert none (dictGet res i))) :=
        dictSize_dictSet_lt res i _ (Finset.ssubset_insert hn)
      exact ⟨Nat.le_of_lt hlt, fun _ => Or.inr hlt⟩
  | cons s rest ih =>
    intro res ch
    simp only [firstScanExpansion]
    by_cases hsub : firstSymbolSet res s ⊆ dictGet res i
    · rw [if_pos hsub]
      split
      · exact ih res ch
      · exact ⟨Nat.le_refl _, fun h => Or.inl h⟩
    · rw [if_neg hsub]
      have hss : dictGet res i ⊂ dictGet res i ∪ firstSymbolSet res s := by
        refine Finset.ssubset_iff_subset_ne.mpr ⟨Finset.subset_union_left, ?_⟩
        intro heq
        exact hsub (by rw [heq]; exact Finset.subset_union_right)
      have hlt : dictSize res <
          dictSize (dictSet res i (dictGet res i ∪ firstSymbolSet res s)) :=
        dictSize_dictSet_lt res i _ hss
      split
      · obtain ⟨h1, _⟩ := ih (dictSet res i (dictGet res i ∪ firstSymbolSet res s)) true
        exact ⟨Nat.le_of_lt (Nat.lt_of_lt_of_le hlt h1),
          fun _ => Or.inr (Nat.lt_of_lt_of_le hlt h1)⟩
      · exact ⟨Nat.le_of_lt hlt, fun _ => Or.inr hlt⟩

theorem firstExpansionFold_size (i : Nat) :
    ∀ (es : List Expansion) (acc : TokenDict × Bool),
      dictSize acc.1 ≤ dictSize ((es.foldl (fun a e => firstScanExpansion i e a.1 a.2) acc)).1 ∧
        (((es.foldl (fun a e => firstScanExpansion i e a.1 a.2) acc)).2 = true →
          acc.2 = true ∨
            dictSize acc.1 <
              dictSize ((es.foldl (fun a e => firstScanExpansion i e a.1 a.2) acc)).1) := by
  intro es
  induction es with
  | nil => intro acc; exact ⟨Nat.le_refl _, fun h => Or.inl h⟩
  | cons e t ih =>
    intro acc
    simp only [List.foldl_cons]
    obtain ⟨hstep_le, hstep_ch⟩ := firstScanExpansion_size i e acc.1 acc.2
    obtain ⟨hrest_le, hrest_ch⟩ := ih (firstScanExpansion i e acc.1 acc.2)
    refine ⟨Nat.le_trans hstep_le hrest_le, ?_⟩
    intro hout
    rcases hrest_ch hout with h | h
    · rcases hstep_ch h with h' | h'
      · exact Or.inl h'
      · exact Or.inr (Nat.lt_of_lt_of_le h' hrest_le)
    · exact Or.inr (Nat.lt_of_le_of_lt hstep_le h)

theorem firstNTFold_size (ns : List NonTerminalNode) :
    ∀ (l : List Nat) (acc : TokenDict × Bool),
      dictSize acc.1 ≤ dictSize ((l.foldl (fun a i => firstScanNonTerminal ns i a) acc)).1 ∧
        (((l.foldl (fun a i => firstScanNonTerminal ns i a) acc)).2 = true →
          acc.2 = true ∨
            dictSize acc.1 <
              dictSize ((l.foldl (fun a i => firstScanNonTerminal ns i a) acc)).1) := by
  intro l
  induction l with
  | nil => intro acc; exact ⟨Nat.le_refl _, fun h => Or.inl h⟩
  | cons i t ih =>
    intro acc
    simp only [List.foldl_cons]
    obtain ⟨hstep_le, hstep_ch⟩ := firstExpansionFold_size i (alternativesOf ns i) acc
    obtain ⟨hrest_le, hrest_ch⟩ := ih (firstScanNonTerminal ns i acc)
    have hstep_le' : dictSize acc.1 ≤ dictSize (firstScanNonTerminal ns i acc).1 := hstep_le
    refine ⟨Nat.le_trans hstep_le' hrest_le, ?_⟩
    intro hout
    rcases hrest_ch hout with h | h
    · rcases hstep_ch h with h' | h'
      · exact Or.inl h'
      · exact Or.inr (Nat.lt_of_lt_of_le h' hrest_le)
    · exact Or.inr (Nat.lt_of_le_of_lt hstep_le' h)

theorem firstPass_size (ns : List NonTerminalNode) (order : List Nat) (res : TokenDict) :
    dictSize res ≤ dictSize (firstPass ns order res).1 ∧
      ((firstPass ns order res).2 = true →
        dictSize res < dictSize (firstPass ns order res).1) := by
  obtain ⟨hle, hch⟩ := firstNTFold_size ns order ((res, false) : TokenDict × Bool)
  refine ⟨hle, fun h => ?_⟩
  rcases hch h with h' | h'
  · exact absurd h' (by simp)
  · exact h'

theorem firstNTFold_false (ns : List NonTerminalNode) :
    ∀ (l : List Nat) (acc : TokenDict × Bool),
      ((l.foldl (fun a i => firstScanNonTerminal ns i a) acc)).2 = false →
      acc.2 = false ∧
        ((l.foldl (fun a i => firstScanNonTerminal ns i a) acc)).1 = acc.1 := by
  intro l
  induction l with
  | nil => intro acc h; exact ⟨h, rfl⟩
  | cons i t ih =>
    intro acc h
    simp only [List.foldl_cons] at h ⊢
    obtain ⟨h1, h2⟩ := ih _ h
    obtain ⟨h3, h4⟩ := firstScanNonTerminal_false ns i acc h1
    exact ⟨h3, by rw [h2, h4]⟩

/-! ### The result sets stay inside the token universe -/

/-- Every value of the mapping lies inside the token universe. -/
def DictBounded (ns : List NonTerminalNode) (d : TokenDict) : Prop :=
  ∀ p ∈ d, p.2 ⊆ tokUniverse ns

theorem dictGet_bounded {ns : List NonTerminalNode} {d : TokenDict}
    (h : DictBounded ns d) (k : Nat) : dictGet d k ⊆ tokUniverse ns := by
  induction d with
  | nil => simp [dictGet]
  | cons p rest ih =>
    simp only [dictGet]
    split
    · exact h p (List.mem_cons_self p rest)
    · exact ih (fun q hq => h q (List.mem_cons_of_mem p hq))

theorem dictSet_bounded {ns : List NonTerminalNode} {d : TokenDict} {v : Finset Tok}
    (h : DictBounded ns d) (hv : v ⊆ tokUniverse ns) (k : Nat) :
    DictBounded ns (dictSet d k v) := by
  induction d with
  | nil =>
    intro p hp
    simp only [dictSet, List.mem_singleton] at hp
    exact hp ▸ hv
  | cons q rest ih =>
    intro p hp
    simp only [dictSet] at hp
    split at hp
    · rcases List.mem_cons.mp hp with h' | h'
      · exact h' ▸ hv
      · exact h p (List.mem_cons_of_mem q h')
    · rcases List.mem_cons.mp hp with h' | h'
      · exact h' ▸ h q (List.mem_cons_self q rest)
      · exact ih (fun r hr => h r (List.mem_cons_of_mem q hr)) p h'

theorem none_mem_tokUniverse (ns : List NonTerminalNode) : none ∈ tokUniverse ns :=
  Finset.mem_insert_self _ _

theorem terminal_mem_tokUniverse {ns : List NonTerminalNode} {i : Nat} {e : Expansion}
    {t : String} (he : e ∈ alternativesOf ns i) (ht : Symbol.terminal t ∈ e) :
    some t ∈ tokUniverse ns := by
  unfold alternativesOf at he
  cases hns : ns[i]? with
  | none => rw [hns] at he; simp at he
  | some nd =>
    rw [hns] at he
    have hnd : nd ∈ ns := by
      rcases List.getElem?_eq_some_iff.mp hns with ⟨hlt, heq⟩
      exact heq ▸ List.getElem_mem hlt
    unfold tokUniverse
    refine Finset.mem_insert.mpr (Or.inr ?_)
    refine Finset.mem_image.mpr ⟨t, ?_, rfl⟩
    rw [List.mem_toFinset, List.mem_filterMap]
    refine ⟨Symbol.terminal t, ?_, rfl⟩
    exact List.mem_flatMap.mpr ⟨nd, hnd, List.mem_flatten.mpr ⟨e, he, ht⟩⟩

theorem firstSymbolSet_bounded {ns : List NonTerminalNode} {res : TokenDict}
    (hb : DictBounded ns res) {s : Symbol}
    (hsafe : ∀ t : String, s = Symbol.terminal t → some t ∈ tokUniverse ns) :
    firstSymbolSet res s ⊆ tokUniverse ns := by
  cases s with
  | terminal t =>
    simpa [firstSymbolSet] using Finset.singleton_subset_iff.mpr (hsafe t rfl)
  | nonTerminal j => exact dictGet_bounded hb j

theorem firstScanExpansion_bounded {ns : List NonTerminalNode} (i : Nat) :
    ∀ (e : Expansion) (res : TokenDict) (ch : Bool), DictBounded ns res →
      (∀ s ∈ e, ∀ t : String, s = Symbol.terminal t → some t ∈ tokUniverse ns) →
      DictBounded ns (firstScanExpansion i e res ch).1 := by
  intro e
  induction e with
  | nil =>
    intro res ch hb _
    simp only [firstScanExpansion]
    split
    · exact hb
    · exact dictSet_bounded hb
        (Finset.insert_subset (none_mem_tokUniverse ns) (dictGet_bounded hb i)) i
  | cons s rest ih =>
    intro res ch hb hsafe
    simp only [firstScanExpansion]
    have hf : firstSymbolSet res s ⊆ tokUniverse ns :=
      firstSymbolSet_bounded hb (hsafe s (List.mem_cons_self s rest))
    have hacc : DictBounded ns
        (if firstSymbolSet res s ⊆ dictGet res i then (res, ch)
          else (dictSet res i (dictGet res i ∪ firstSymbolSet res s), true)).1 := by
      split
      · exact hb
      · exact dictSet_bounded hb (Finset.union_subset (dictGet_bounded hb i) hf) i
    split
    · exact ih _ _ hacc (fun s' hs' => hsafe s' (List.mem_cons_of_mem s hs'))
    · exact hacc

theorem firstScanNonTerminal_bounded {ns : List NonTerminalNode} (i : Nat) :
    ∀ (es : List Expansion) (acc : TokenDict × Bool), DictBounded ns acc.1 →
      (∀ e ∈ es, e ∈ alternativesOf ns i) →
      DictBounded ns ((es.foldl (fun a e => firstScanExpansion i e a.1 a.2) acc)).1 := by
  intro es
  induction es with
  | nil => intro acc hb _; exact hb
  | cons e t ih =>
    intro acc hb hes
    simp only [List.foldl_cons]
    refine ih _ ?_ (fun e' he' => hes e' (List.mem_cons_of_mem e he'))
    refine firstScanExpansion_bounded i e acc.1 acc.2 hb ?_
    intro s hs tt hst
    exact terminal_mem_tokUniverse (hes e (List.mem_cons_self e t)) (hst ▸ hs)

theorem firstPass_bounded {ns : List NonTerminalNode} (order : List Nat)
    (res : TokenDict) (hb : DictBounded ns res) :
    DictBounded ns (firstPass ns order res).1 := by
  unfold firstPass
  have hfold : ∀ (l : List Nat) (acc : TokenDict × Bool), DictBounded ns acc.1 →
      DictBounded ns ((l.foldl (fun a i => firstScanNonTerminal ns i a) acc)).1 := by
    intro l
    induction l with
    | nil => intro acc hb'; exact hb'
    | cons i t ih =>
      intro acc hb'
      simp only [List.foldl_cons]
      refine ih _ ?_
      exact firstScanNonTerminal_bounded i (alternativesOf ns i) acc hb' (fun e he => he)
  exact hfold order (res, false) hb

theorem dictSize_le_bound {ns : List NonTerminalNode} {d : TokenDict}
    (hb : DictBounded ns d) : dictSize d ≤ (tokUniverse ns).card * d.length := by
  induction d with
  | nil => simp [dictSize]
  | cons p rest ih =>
    simp only [dictSize, List.map_cons, List.sum_cons, List.length_cons, Nat.mul_succ]
    have h1 : p.2.card ≤ (tokUniverse ns).card :=
      Finset.card_le_card (hb p (List.mem_cons_self p rest))
    have h2 := ih (fun q hq => hb q (List.mem_cons_of_mem p hq))
    simp only [dictSize] at h2
    omega

theorem dictSize_initDict (order : List Nat) : dictSize (initDict order) = 0 := by
  induction order with
  | nil => rfl
  | cons i t ih => simp only [initDict, List.map_cons, dictSize, List.sum_cons,
      Finset.card_empty] at ih ⊢; simpa using ih

theorem initDict_bounded (ns : List NonTerminalNode) (order : List Nat) :
    DictBounded ns (initDict order) := by
  intro p hp
  unfold initDict at hp
  rcases List.mem_map.mp hp with ⟨i, _, heq⟩
  rw [← heq]
  exact Finset.empty_subset _

/-- Within `solveFuel`, the loop reaches a mapping on which a further pass
makes no change. -/
theorem firstIterate_fix (ns : List NonTerminalNode) (order : List Nat) :
    ∀ (fuel : Nat) (res : TokenDict), DictBounded ns res → dictKeys res = order →
      solveFuel ns order - dictSize res ≤ fuel →
      firstPass ns order (firstIterate ns order fuel res)
        = (firstIterate ns order fuel res, false) := by
  intro fuel
  induction fuel with
  | zero =>
    intro res hb hk hfuel
    exfalso
    have hlen : res.length = order.length := by
      have : (dictKeys res).length = order.length := by rw [hk]
      simpa [dictKeys] using this
    have hbound := dictSize_le_bound hb
    rw [hlen] at hbound
    simp only [solveFuel] at hfuel
    omega
  | succ n ih =>
    intro res hb hk hfuel
    simp only [firstIterate]
    by_cases hch : (firstPass ns order res).2 = true
    · rw [if_pos hch]
      have hsize : dictSize res < dictSize (firstPass ns order res).1 :=
        (firstPass_size ns order res).2 hch
      refine ih (firstPass ns order res).1 (firstPass_bounded order res hb) ?_ ?_
      · have := firstPass_keys ns order ((res, false) : TokenDict × Bool)
          (fun i hi => by rw [hk]; exact hi)
        rw [hk] at this
        exact this
      · omega
    · have hch' : (firstPass ns order res).2 = false := by
        cases hb2 : (firstPass ns order res).2
        · rfl
        · exact absurd hb2 hch
      rw [if_neg hch]
      have heq : (firstPass ns order res).1 = res :=
        (firstNTFold_false ns order ((res, false) : TokenDict × Bool) hch').2
      rw [heq]
      exact Prod.ext heq hch'

/-- The computed FIRST mapping is a fixpoint of the pass. -/
theorem firstSetsFrom_fix (ns : List NonTerminalNode) (order : List Nat) :
    firstPass ns order (firstSetsFrom ns order) = (firstSetsFrom ns order, false) := by
  unfold firstSetsFrom
  refine firstIterate_fix ns order (solveFuel ns order) (initDict order)
    (initDict_bounded ns order) (dictKeys_initDict order) ?_
  rw [dictSize_initDict]
  exact Nat.le_refl _

/-- The computed FIRST mapping is closed under the scan rule. -/
theorem firstSetsFrom_closed (ns : List NonTerminalNode) (order : List Nat) :
    FirstClosed ns order (firstSetsFrom ns order) := by
  have hfix := firstSetsFrom_fix ns order
  have h2 : (firstPass ns order (firstSetsFrom ns order)).2 = false := by
    rw [hfix]
  intro i hi e he
  refine firstPass_stable_closed ns order (firstSetsFrom ns order) ?_ i hi e he
  unfold firstPass at h2
  exact h2

/-- C8: the FIRST solver's result does not depend on the enumeration order of
the discovered set — for any two iteration orders that are permutations of
each other, the returned mappings have the same key set and, at every
non-terminal, the same set of terminals and nullable marker. Hence two
successive invocations of `first_sets()` on an unchanged graph return
set-for-set identical mappings. -/
theorem first_sets_order_independent (ns : List NonTerminalNode) (o1 o2 : List Nat)
    (hperm : o1.Perm o2) :
    (dictKeys (firstSetsFrom ns o1)).toFinset = (dictKeys (firstSetsFrom ns o2)).toFinset ∧
      ∀ i : Nat, dictGet (firstSetsFrom ns o1) i = dictGet (firstSetsFrom ns o2) i := by
  constructor
  · rw [firstSetsFrom_keys, firstSetsFrom_keys]
    exact List.toFinset_eq_of_perm _ _ hperm
  · intro i
    have hcl1 : FirstClosed ns o2 (firstSetsFrom ns o1) := by
      intro j hj e he
      exact firstSetsFrom_closed ns o1 j (hperm.mem_iff.mpr hj) e he
    have hcl2 : FirstClosed ns o1 (firstSetsFrom ns o2) := by
      intro j hj e he
      exact firstSetsFrom_closed ns o2 j (hperm.mem_iff.mp hj) e he
    have hinit : ∀ (o : List Nat), DictLE (initDict o) (firstSetsFrom ns o2) := by
      intro o k
      rw [dictGet_initDict]
      exact Finset.empty_subset _
    have hinit' : ∀ (o : List Nat), DictLE (initDict o) (firstSetsFrom ns o1) := by
      intro o k
      rw [dictGet_initDict]
      exact Finset.empty_subset _
    have h12 : DictLE (firstSetsFrom ns o1) (firstSetsFrom ns o2) :=
      firstIterate_le hcl2 (solveFuel ns o1) (initDict o1) (hinit o1)
    have h21 : DictLE (firstSetsFrom ns o2) (firstSetsFrom ns o1) :=
      firstIterate_le hcl1 (solveFuel ns o2) (initDict o2) (hinit' o2)
    exact Finset.Subset.antisymm (h12 i) (h21 i)

/-- Witness for C8 at a concrete grammar and a nontrivial pair of enumeration
orders. -/
theorem first_sets_order_independent_witness :
    List.Perm [0, 1] [1, 0] ∧
      ((dictKeys (firstSetsFrom [nodeE, nodeF] [0, 1])).toFinset
          = (dictKeys (firstSetsFrom [nodeE, nodeF] [1, 0])).toFinset ∧
        ∀ i : Nat, dictGet (firstSetsFrom [nodeE, nodeF] [0, 1]) i
          = dictGet (firstSetsFrom [nodeE, nodeF] [1, 0]) i) :=
  ⟨by decide, first_sets_order_independent [nodeE, nodeF] [0, 1] [1, 0] (by decide)⟩

end Grammarlib
